import Mathlib

set_option maxRecDepth 100000

/-!
Verification of the public-key identity codec of the ed25519-keygen
repository (file src/ipns.ts).

Byte strings are modelled as `List Nat` (each entry a byte value `< 256`),
JavaScript strings as `List Char`.  Arbitrary-precision JavaScript `BigInt`
values are modelled by `Nat` / `Int`.  The functions of the external
dependency `@scure/base` (`hex`, `base32`) are modelled arithmetically,
mirroring the semantics of its `convertRadix2` routine; the external
ed25519 key generator of `@noble/curves` is modelled by an executable
RFC 8032 implementation (SHA-512 plus Edwards-curve scalar multiplication).
-/

/-! ### Positional digit strings -/

/-- Value of a big-endian digit string in base `b` (Horner evaluation). -/
def fromDigits (b : Nat) (ds : List Nat) : Nat :=
  ds.foldl (fun a d => a * b + d) 0

/-- Exactly `k` big-endian digits of `n` in base `b` (the value taken
modulo `b ^ k`, left-padded with zero digits). -/
def toDigitsFix (b : Nat) : Nat → Nat → List Nat
  | 0, _ => []
  | k + 1, n => toDigitsFix b k (n / b) ++ [n % b]

/-- Fuel-driven minimal digit string of `n` in base `b`, most significant
digit first; empty for `n = 0`. -/
def natToDigitsCore (b : Nat) : Nat → Nat → List Nat
  | 0, _ => []
  | fuel + 1, n => if n = 0 then [] else natToDigitsCore b fuel (n / b) ++ [n % b]

/-- Digit string of `n` in base `b` as produced by JavaScript
`BigInt.prototype.toString(b)` for non-negative values: no leading zeros,
and the single digit `0` for `n = 0`. -/
def natToDigits (b n : Nat) : List Nat :=
  if n = 0 then [0] else natToDigitsCore b n n

/-! ### Model of the scure-base codecs used by ipns.ts -/

/-- Alphabet of scure-base `hex` (lower-case). -/
def hexAlph : List Char := "0123456789abcdef".toList

/-- Alphabet shared by JavaScript `toString(36)` and the decoder's base-36
branch; its first 16 characters are the hex alphabet. -/
def b36Alph : List Char := "0123456789abcdefghijklmnopqrstuvwxyz".toList

/-- Alphabet of scure-base `base32` (RFC 4648). -/
def b32Alph : List Char := "ABCDEFGHIJKLMNOPQRSTUVWXYZ234567".toList

/-- Model of scure-base `convertRadix2` from bytes to `tb`-bit digits
(encode direction, with zero-bit padding of the final partial digit). -/
def radix2encode (tb : Nat) (bs : List Nat) : List Nat :=
  let bits := 8 * bs.length
  let m := (bits + (tb - 1)) / tb
  toDigitsFix (2 ^ tb) m (fromDigits 256 bs * 2 ^ (tb * m - bits))

/-- Model of scure-base `convertRadix2` from `fb`-bit digits to bytes
(decode direction, strict: leftover bits must number fewer than `fb` and
must all be zero, otherwise the JavaScript code throws). -/
def radix2decode (fb : Nat) (ds : List Nat) : Option (List Nat) :=
  if ds.any (fun d => 2 ^ fb ≤ d) then none else
  let bits := fb * ds.length
  let r := bits % 8
  if fb ≤ r then none else
  let v := fromDigits (2 ^ fb) ds
  if v % 2 ^ r ≠ 0 then none else
  some (toDigitsFix 256 (bits / 8) (v / 2 ^ r))

/-- Index of a character in an alphabet, or `none` when absent. -/
def alphIdx (alph : List Char) (c : Char) : Option Nat :=
  match alph with
  | [] => none
  | x :: xs => if x = c then some 0 else (alphIdx xs c).map (fun i => i + 1)

/-- Map a partial function over a list, failing when any element fails. -/
def mapOption (f : α → Option β) : List α → Option (List β)
  | [] => some []
  | x :: xs =>
    match f x, mapOption f xs with
    | some y, some ys => some (y :: ys)
    | _, _ => none

/-- Model of scure-base `hex.encode`: lower-case hexadecimal rendering. -/
def hex_encode (bs : List Nat) : List Char :=
  (radix2encode 4 bs).map (fun d => hexAlph.getD d '?')

/-- Model of scure-base `hex.decode`: fails (the JavaScript code throws)
on characters outside `0-9a-f` or an odd character count. -/
def hex_decode (s : List Char) : Option (List Nat) :=
  (mapOption (alphIdx hexAlph) s).bind (radix2decode 4)

/-- Model of scure-base `base32.encode`: RFC 4648 alphabet with trailing
`=` padding up to a whole number of bytes. -/
def base32_encode (bs : List Nat) : List Char :=
  let body := (radix2encode 5 bs).map (fun d => b32Alph.getD d '?')
  body ++ List.replicate ((8 - body.length % 8) % 8) '='

/-- Model of scure-base `base32.decode`: requires a whole number of bytes,
strips trailing `=` padding, then maps the RFC 4648 alphabet and converts
5-bit digits to bytes. -/
def base32_decode (s : List Char) : Option (List Nat) :=
  if (s.length * 5) % 8 ≠ 0 then none else
  let data := (s.reverse.dropWhile (fun c => c = '=')).reverse
  (mapOption (alphIdx b32Alph) data).bind (radix2decode 5)

/-! ### The ipns.ts codec -/

/-- The fixed 8-byte protocol tag `01 72 00 24 08 01 12 20` prepended to a
raw public key (ipns.ts line 66). -/
def PROTOCOL_TAG : List Nat := [0x01, 0x72, 0x00, 0x24, 0x08, 0x01, 0x12, 0x20]

/-- The protocol tag in its 16-character hexadecimal form, as matched by
the decoder's validation (ipns.ts line 48). -/
def TAG_HEX : List Char := "0172002408011220".toList

/-- The errors parseAddress can raise.  `unsupportedFormat` models
Error("Unsupported Base-X Format"); `invalidKeyTag h` models
Error("Invalid IPNS Key Prefix: " + h) and carries the offending hex
string; `scureError` models an exception escaping from the scure-base
`hex.decode` / `base32.decode` calls. -/
inductive ParseError where
  | unsupportedFormat : ParseError
  | invalidKeyTag : List Char → ParseError
  | scureError : ParseError
deriving DecidableEq, Repr

/-- ASCII lower-casing of one character; models the effect of JavaScript
`toLowerCase` on the ASCII range. -/
def asciiToLower (c : Char) : Char :=
  if 'A' ≤ c ∧ c ≤ 'Z' then Char.ofNat (c.toNat + 32) else c

/-- ASCII upper-casing of one character; models the effect of JavaScript
`toUpperCase` on the ASCII range. -/
def asciiToUpper (c : Char) : Char :=
  if 'a' ≤ c ∧ c ≤ 'z' then Char.ofNat (c.toNat - 32) else c

/-- Strip one leading scheme marker exactly as ipns.ts line 25 does: the
match is case-sensitive and happens before any lower-casing. -/
def stripScheme (a : List Char) : List Char :=
  if a.take 7 = "ipns://".toList then a.drop 7 else a

/-- The decoder's input normalization (ipns.ts lines 25-27): optional
scheme-marker stripping followed by lower-casing. -/
def normalizeAddress (a : List Char) : List Char :=
  (stripScheme a).map asciiToLower

/-- JavaScript `"0123456789abcdefghijklmnopqrstuvwxyz".indexOf(c)`:
the index of `c`, or `-1` when `c` is not in the alphabet. -/
def b36idx (c : Char) : Int :=
  match alphIdx b36Alph c with
  | some i => (i : Int)
  | none => -1

/-- JavaScript `BigInt.prototype.toString(16)`, including the leading `-`
sign a negative value receives. -/
def jsIntToHex (i : Int) : List Char :=
  if i < 0 then '-' :: (natToDigits 16 i.natAbs).map (fun d => b36Alph.getD d '?')
  else (natToDigits 16 i.toNat).map (fun d => b36Alph.getD d '?')

/-- The branch dispatch of parseAddress (ipns.ts lines 29-45) on an
already normalized address: produces the intermediate hex string handed to
validation, or the error raised before validation is reached. -/
def intermediateHexCore (address : List Char) : Except ParseError (List Char) :=
  if address.head? = some 'k' then
    let result := (address.drop 1).foldl (fun r c => r * 36 + b36idx c) (0 : Int)
    Except.ok (List.leftpad 80 '0' (jsIntToHex result))
  else if address.head? = some 'b' then
    match base32_decode ((address.drop 1).map asciiToUpper) with
    | some bytes => Except.ok (hex_encode bytes)
    | none => Except.error ParseError.scureError
  else if address.head? = some 'f' then
    Except.ok (address.drop 1)
  else Except.error ParseError.unsupportedFormat

/-- The intermediate hex string of parseAddress for a raw address. -/
def intermediateHex (address : List Char) : Except ParseError (List Char) :=
  intermediateHexCore (normalizeAddress address)

/-- parseAddress (ipns.ts lines 23-55): normalize, dispatch on the base
indicator, then validate the intermediate hex string (16-character tag and
total length 80) and decode it to bytes. -/
def parseAddress (address : List Char) : Except ParseError (List Nat) :=
  match intermediateHex address with
  | Except.error e => Except.error e
  | Except.ok hexKey =>
    if hexKey.take 16 = TAG_HEX ∧ hexKey.length = 80 then
      match hex_decode hexKey with
      | some bytes => Except.ok bytes
      | none => Except.error ParseError.scureError
    else Except.error (ParseError.invalidKeyTag hexKey)

/-- The error getKeys can raise: TypeError("Seed must be 32 bytes in
length") (ipns.ts line 61). -/
inductive KeyError where
  | invalidSeedLength : KeyError
deriving DecidableEq, Repr

/-- The output record of getKeys (ipns.ts lines 72-81). -/
structure KeyBundle where
  publicKey : List Char
  privateKey : List Char
  base36 : List Char
  base32 : List Char
  base16 : List Char
  contenthash : List Char
deriving DecidableEq, Repr

/-- The tagged-key builder inside getKeys (ipns.ts lines 65-68):
protocol tag concatenated with the raw public key. -/
def buildPublic (pubKey : List Nat) : List Nat :=
  PROTOCOL_TAG ++ pubKey

/-- Hex form of the tagged key: `hex.encode(pubKeyBytes).toLowerCase()`
(ipns.ts line 70). -/
def taggedHex (pubKeyBytes : List Nat) : List Char :=
  (hex_encode pubKeyBytes).map asciiToLower

/-- JavaScript `BigInt("0x" + s)` on a valid hex string `s`. -/
def jsHexToNat (s : List Char) : Nat :=
  fromDigits 16 (s.map (fun c => (alphIdx hexAlph c).getD 0))

/-- The base-36 address field of getKeys (ipns.ts line 77). -/
def addrBase36 (pubKeyBytes : List Nat) : List Char :=
  "ipns://k".toList ++
    (natToDigits 36 (jsHexToNat (taggedHex pubKeyBytes))).map (fun d => b36Alph.getD d '?')

/-- The base-32 address field of getKeys (ipns.ts line 78). -/
def addrBase32 (pubKeyBytes : List Nat) : List Char :=
  "ipns://b".toList ++ (base32_encode pubKeyBytes).map asciiToLower

/-- The base-16 address field of getKeys (ipns.ts line 79). -/
def addrBase16 (pubKeyBytes : List Nat) : List Char :=
  "ipns://f".toList ++ taggedHex pubKeyBytes

/-- The contenthash field of getKeys (ipns.ts line 80): the literal
template `0xe501` followed by the tagged-key hex. -/
def contenthashOf (pubKeyBytes : List Nat) : List Char :=
  "0xe501".toList ++ taggedHex pubKeyBytes

/-- getKeys (ipns.ts lines 59-82), parametrized by the external
key-material provider (`ed25519.getPublicKey` of noble-curves). -/
def getKeys (getPublicKey : List Nat → List Nat) (seed : List Nat) :
    Except KeyError KeyBundle :=
  if seed.length ≠ 32 then Except.error KeyError.invalidSeedLength else
  let pubKey := getPublicKey seed
  let pubKeyBytes := buildPublic pubKey
  Except.ok
    { publicKey := "0x".toList ++ taggedHex pubKeyBytes
      privateKey := "0x".toList ++ hex_encode ([0x08, 0x01, 0x12, 0x40] ++ seed ++ pubKey)
      base36 := addrBase36 pubKeyBytes
      base32 := addrBase32 pubKeyBytes
      base16 := addrBase16 pubKeyBytes
      contenthash := contenthashOf pubKeyBytes }

/-- formatPublicKey (ipns.ts lines 9-18). -/
def formatPublicKey (pubBytes : List Nat) : List Char :=
  "ipns://k".toList ++
    (natToDigits 36 (jsHexToNat (hex_encode pubBytes))).map (fun d => b36Alph.getD d '?')

deriving instance DecidableEq for Except

/-! ### Model of the external key-material provider: RFC 8032 ed25519

`ed25519.getPublicKey` of noble-curves computes SHA-512 of the seed,
clamps the first half into a scalar, multiplies the Edwards base point
and encodes the result.  Everything below is executable arithmetic on
`Nat`, so the known-answer vector can be evaluated inside the kernel. -/

/-- Integer square root by fuel-driven binary search on `[lo, hi)` with
invariant `lo ^ 2 ≤ n < hi ^ 2`. -/
def isqrtAux (n : Nat) : Nat → Nat → Nat → Nat
  | 0, lo, _ => lo
  | fuel + 1, lo, hi =>
    if hi ≤ lo + 1 then lo else
    let mid := (lo + hi) / 2
    if mid * mid ≤ n then isqrtAux n fuel mid hi else isqrtAux n fuel lo mid

/-- Integer square root (for values below `2 ^ 160`). -/
def isqrt (n : Nat) : Nat := isqrtAux n 90 0 (2 ^ 80)

/-- Integer cube root by fuel-driven binary search. -/
def icbrtAux (n : Nat) : Nat → Nat → Nat → Nat
  | 0, lo, _ => lo
  | fuel + 1, lo, hi =>
    if hi ≤ lo + 1 then lo else
    let mid := (lo + hi) / 2
    if mid * mid * mid ≤ n then icbrtAux n fuel mid hi else icbrtAux n fuel lo mid

/-- Integer cube root (for values below `2 ^ 240`). -/
def icbrt (n : Nat) : Nat := icbrtAux n 90 0 (2 ^ 80)

/-- The first 80 primes; SHA-512 derives its round constants from them. -/
def sha512Primes : List Nat :=
  [2, 3, 5, 7, 11, 13, 17, 19, 23, 29, 31, 37, 41, 43, 47, 53, 59, 61, 67, 71,
   73, 79, 83, 89, 97, 101, 103, 107, 109, 113, 127, 131, 137, 139, 149, 151,
   157, 163, 167, 173, 179, 181, 191, 193, 197, 199, 211, 223, 227, 229, 233,
   239, 241, 251, 257, 263, 269, 271, 277, 281, 283, 293, 307, 311, 313, 317,
   331, 337, 347, 349, 353, 359, 367, 373, 379, 383, 389, 397, 401, 409]

/-- SHA-512 round constants: the first 64 bits of the fractional parts of
the cube roots of the first 80 primes. -/
def sha512K : List Nat :=
  sha512Primes.map (fun p => icbrt (p * 2 ^ 192) % 2 ^ 64)

/-- SHA-512 initial hash value: the first 64 bits of the fractional parts
of the square roots of the first 8 primes. -/
def sha512IV : List Nat :=
  (sha512Primes.take 8).map (fun p => isqrt (p * 2 ^ 128) % 2 ^ 64)

/-- Addition modulo `2 ^ 64`. -/
def add64 (a b : Nat) : Nat := (a + b) % 2 ^ 64

/-- Right rotation of a 64-bit word. -/
def rotr64 (x n : Nat) : Nat := (x / 2 ^ n + x % 2 ^ n * 2 ^ (64 - n)) % 2 ^ 64

/-- Bitwise complement of a 64-bit word. -/
def not64 (x : Nat) : Nat := 2 ^ 64 - 1 - x

/-- Big-endian 64-bit words from a byte string (length a multiple of 8);
the fuel bounds the number of words. -/
def bytesToWords64 : Nat → List Nat → List Nat
  | 0, _ => []
  | fuel + 1, bs =>
    if bs = [] then [] else
    fromDigits 256 (bs.take 8) :: bytesToWords64 fuel (bs.drop 8)

/-- SHA-512 message schedule: extend 16 words to 80. -/
def sha512Schedule (w : List Nat) : Nat → List Nat
  | 0 => w
  | fuel + 1 =>
    let w := sha512Schedule w fuel
    let i := w.length
    let w2 := w.getD (i - 2) 0
    let w7 := w.getD (i - 7) 0
    let w15 := w.getD (i - 15) 0
    let w16 := w.getD (i - 16) 0
    let s0 := (rotr64 w15 1) ^^^ (rotr64 w15 8) ^^^ (w15 / 2 ^ 7)
    let s1 := (rotr64 w2 19) ^^^ (rotr64 w2 61) ^^^ (w2 / 2 ^ 6)
    w ++ [add64 (add64 s1 w7) (add64 s0 w16)]

/-- One SHA-512 compression round. -/
def sha512Round (st : List Nat) (kw : Nat × Nat) : List Nat :=
  match st with
  | [a, b, c, d, e, f, g, h] =>
    let S1 := (rotr64 e 14) ^^^ (rotr64 e 18) ^^^ (rotr64 e 41)
    let ch := (e &&& f) ^^^ (not64 e &&& g)
    let t1 := add64 h (add64 S1 (add64 ch (add64 kw.1 kw.2)))
    let S0 := (rotr64 a 28) ^^^ (rotr64 a 34) ^^^ (rotr64 a 39)
    let mj := (a &&& b) ^^^ (a &&& c) ^^^ (b &&& c)
    let t2 := add64 S0 mj
    [add64 t1 t2, a, b, c, add64 d t1, e, f, g]
  | other => other

/-- SHA-512 of a message that fits in one padded block (length at most
111 bytes); the seed hashed by ed25519 key generation is 32 bytes. -/
def sha512 (msg : List Nat) : List Nat :=
  let padded := msg ++ [0x80] ++ List.replicate (111 - msg.length) 0 ++
    toDigitsFix 256 16 (8 * msg.length)
  let w := sha512Schedule (bytesToWords64 16 padded) 64
  let st := (sha512K.zip w).foldl sha512Round sha512IV
  ((sha512IV.zip st).map (fun p => add64 p.1 p.2)).foldr
    (fun word acc => toDigitsFix 256 8 word ++ acc) []

/-- The ed25519 field order `2 ^ 255 - 19`. -/
def P25519 : Nat := 2 ^ 255 - 19

/-- Tail-recursive square-and-multiply with accumulator; the invariant is
`result = acc * b ^ e mod m`.  The bounds check always holds (both values
are reduced modulo `m`); it keeps the kernel evaluation iterative. -/
def powModAux (m : Nat) : Nat → Nat → Nat → Nat → Nat
  | 0, _, _, acc => acc
  | fuel + 1, b, e, acc =>
    if e = 0 then acc else
    let acc' := if e % 2 = 1 then acc * b % m else acc
    let b' := b * b % m
    if acc' + b' < 2 * m + 2 then powModAux m fuel b' (e / 2) acc' else 0

/-- Modular exponentiation `b ^ e mod m` by fuel-driven binary
square-and-multiply. -/
def powMod (fuel b e m : Nat) : Nat :=
  powModAux m fuel (b % m) e (1 % m)

/-- Inverse modulo the ed25519 field order (Fermat). -/
def finv (x : Nat) : Nat := powMod 300 x (P25519 - 2) P25519

/-- Subtraction modulo the ed25519 field order (both arguments reduced). -/
def fsub (a b : Nat) : Nat := (a + (P25519 - b)) % P25519

/-- The twisted-Edwards curve constant `d = -121665 / 121666`. -/
def edD : Nat := (P25519 - 121665) * finv 121666 % P25519

/-- Extended homogeneous coordinates `(X, Y, Z, T)`. -/
abbrev EdPoint : Type := Nat × Nat × Nat × Nat

/-- Point addition in extended coordinates (RFC 8032, section 5.1.4). -/
def pointAdd (p q : EdPoint) : EdPoint :=
  match p, q with
  | (x1, y1, z1, t1), (x2, y2, z2, t2) =>
    let a := fsub y1 x1 * fsub y2 x2 % P25519
    let b := (y1 + x1) % P25519 * ((y2 + x2) % P25519) % P25519
    let c := t1 * (2 * edD % P25519) % P25519 * t2 % P25519
    let d := z1 * (2 * z2 % P25519) % P25519
    let e := fsub b a
    let f := fsub d c
    let g := (d + c) % P25519
    let h := (b + a) % P25519
    (e * f % P25519, g * h % P25519, f * g % P25519, e * h % P25519)

/-- Point doubling in extended coordinates (RFC 8032, section 5.1.4). -/
def pointDouble (p : EdPoint) : EdPoint :=
  match p with
  | (x1, y1, z1, _) =>
    let a := x1 * x1 % P25519
    let b := y1 * y1 % P25519
    let c := 2 * (z1 * z1 % P25519) % P25519
    let h := (a + b) % P25519
    let e := fsub h ((x1 + y1) % P25519 * ((x1 + y1) % P25519) % P25519)
    let g := fsub a b
    let f := (c + g) % P25519
    (e * f % P25519, g * h % P25519, f * g % P25519, e * h % P25519)

/-- Double-and-add scalar multiplication, most significant bit first;
`fuel` is the number of remaining bit positions.  The bounds check on the
accumulator always holds (every field operation reduces modulo the field
order); it makes the recursion strict, so the kernel evaluates each
intermediate point to literals. -/
def scalarMulAux (k : Nat) (base : EdPoint) : Nat → EdPoint → EdPoint
  | 0, acc => acc
  | i + 1, acc =>
    let acc := pointDouble acc
    let acc := if k / 2 ^ i % 2 = 1 then pointAdd acc base else acc
    match acc with
    | (x, y, z, t) =>
      if x + y + z + t < 4 * P25519 then scalarMulAux k base i (x, y, z, t)
      else (0, 1, 1, 0)

/-- Scalar multiplication `k * base` for `k < 2 ^ 255`. -/
def scalarMul (k : Nat) (base : EdPoint) : EdPoint :=
  scalarMulAux k base 255 (0, 1, 1, 0)

/-- Square root of `-1` in the ed25519 field. -/
def sqrtM1 : Nat := powMod 300 2 ((P25519 - 1) / 4) P25519

/-- Recover the even-`x` coordinate from a `y` coordinate (RFC 8032,
section 5.1.3). -/
def xRecover (y : Nat) : Nat :=
  let xx := fsub (y * y % P25519) 1 * finv ((edD * (y * y % P25519) % P25519 + 1) % P25519) % P25519
  let x := powMod 300 xx ((P25519 + 3) / 8) P25519
  let x := if x * x % P25519 = xx then x else x * sqrtM1 % P25519
  if x % 2 = 1 then P25519 - x else x

/-- The ed25519 base point `B = (x, 4/5)` with even `x`, in extended
coordinates. -/
def edBase : EdPoint :=
  let by' := 4 * finv 5 % P25519
  let bx := xRecover by'
  (bx, by', 1, bx * by' % P25519)

/-- Little-endian byte string of fixed length `k`. -/
def natToLEBytes (k n : Nat) : List Nat :=
  (toDigitsFix 256 k n).reverse

/-- Little-endian value of a byte string. -/
def leBytesToNat (bs : List Nat) : Nat :=
  fromDigits 256 bs.reverse

/-- Model of noble-curves `ed25519.getPublicKey` (RFC 8032, section
5.1.5): hash the seed with SHA-512, clamp the lower half into a scalar,
multiply the base point and encode the result. -/
def ed25519_getPublicKey (seed : List Nat) : List Nat :=
  let h := sha512 seed
  let a := (leBytesToNat (h.take 32) &&& (2 ^ 254 - 8)) ||| 2 ^ 254
  let p := scalarMul a edBase
  match p with
  | (x, y, z, _) =>
    let zi := finv z
    let xa := x * zi % P25519
    let ya := y * zi % P25519
    natToLEBytes 32 (ya + xa % 2 * 2 ^ 255)

/-! ### The repository's known-answer vector -/

/-- Seed of the known-answer vector
(hex 0681d6420abb1ba47acd5c03c8e5ee84185a2673576b262e234e50c46d86f597). -/
def vectorSeed : List Nat :=
  [0x06, 0x81, 0xd6, 0x42, 0x0a, 0xbb, 0x1b, 0xa4, 0x7a, 0xcd, 0x5c, 0x03,
   0xc8, 0xe5, 0xee, 0x84, 0x18, 0x5a, 0x26, 0x73, 0x57, 0x6b, 0x26, 0x2e,
   0x23, 0x4e, 0x50, 0xc4, 0x6d, 0x86, 0xf5, 0x97]

/-- The ed25519 public key of the known-answer vector
(hex 12c8299ec2c51dffbbcb4f9fccadcee1424cb237e9b30d3cd72d47c18103689d). -/
def vectorPub : List Nat :=
  [0x12, 0xc8, 0x29, 0x9e, 0xc2, 0xc5, 0x1d, 0xff, 0xbb, 0xcb, 0x4f, 0x9f,
   0xcc, 0xad, 0xce, 0xe1, 0x42, 0x4c, 0xb2, 0x37, 0xe9, 0xb3, 0x0d, 0x3c,
   0xd7, 0x2d, 0x47, 0xc1, 0x81, 0x03, 0x68, 0x9d]

/-- The base-32 address of the known-answer vector, without scheme marker. -/
def vectorAddr : List Char :=
  "bafzaajaiaejcaewifgpmfri57654wt47zsw45ykcjszdp2ntbu6nolkhygaqg2e5".toList

/-! ### Arithmetic of digit strings -/

theorem length_toDigitsFix (b k : Nat) : ∀ n, (toDigitsFix b k n).length = k := by
  induction k with
  | zero => intro n; rfl
  | succ k ih =>
    intro n
    simp only [toDigitsFix, List.length_append, ih, List.length_singleton]

theorem mem_toDigitsFix_lt (b k : Nat) (hb : 0 < b) :
    ∀ n, ∀ d ∈ toDigitsFix b k n, d < b := by
  induction k with
  | zero => intro n d h; cases h
  | succ k ih =>
    intro n d h
    simp only [toDigitsFix, List.mem_append, List.mem_singleton] at h
    rcases h with h | h
    · exact ih _ d h
    · subst h; exact Nat.mod_lt _ hb

theorem fromDigits_foldl (b : Nat) (ds : List Nat) : ∀ a : Nat,
    ds.foldl (fun a d => a * b + d) a = a * b ^ ds.length + fromDigits b ds := by
  induction ds with
  | nil => intro a; simp [fromDigits]
  | cons d ds ih =>
    intro a
    simp only [List.foldl_cons, List.length_cons, fromDigits] at *
    rw [ih (a * b + d), ih (0 * b + d)]
    ring

theorem fromDigits_append (b : Nat) (xs ys : List Nat) :
    fromDigits b (xs ++ ys) = fromDigits b xs * b ^ ys.length + fromDigits b ys := by
  simp only [fromDigits, List.foldl_append]
  exact fromDigits_foldl b ys (fromDigits b xs)

theorem fromDigits_lt (b : Nat) (ds : List Nat) (hd : ∀ d ∈ ds, d < b) :
    fromDigits b ds < b ^ ds.length := by
  induction ds with
  | nil => simp [fromDigits]
  | cons d ds ih =>
    have hdb : d < b := hd d (List.mem_cons_self d ds)
    have hds : fromDigits b ds < b ^ ds.length := ih (fun x hx => hd x (List.mem_cons_of_mem d hx))
    have hcons : fromDigits b (d :: ds) = d * b ^ ds.length + fromDigits b ds := by
      have := fromDigits_append b [d] ds
      simpa [fromDigits] using this
    rw [hcons, List.length_cons, pow_succ]
    calc d * b ^ ds.length + fromDigits b ds
        < d * b ^ ds.length + b ^ ds.length := by omega
      _ = (d + 1) * b ^ ds.length := by ring
      _ ≤ b * b ^ ds.length := Nat.mul_le_mul_right _ (by omega)
      _ = b ^ ds.length * b := by ring

theorem fromDigits_toDigitsFix (b k : Nat) : ∀ n, n < b ^ k →
    fromDigits b (toDigitsFix b k n) = n := by
  induction k with
  | zero => intro n h; simp at h; simp [h, toDigitsFix, fromDigits]
  | succ k ih =>
    intro n h
    have hb : 0 < b := by
      rcases Nat.eq_zero_or_pos b with hb0 | hb0
      · subst hb0; simp at h
      · exact hb0
    have hdiv : n / b < b ^ k := by
      rw [Nat.div_lt_iff_lt_mul hb]
      calc n < b ^ (k + 1) := h
        _ = b ^ k * b := pow_succ b k
    simp only [toDigitsFix]
    rw [fromDigits_append, ih _ hdiv]
    simp [fromDigits]
    exact Nat.div_add_mod' n b

theorem toDigitsFix_zero_val (b k : Nat) : toDigitsFix b k 0 = List.replicate k 0 := by
  induction k with
  | zero => rfl
  | succ k ih =>
    simp only [toDigitsFix, Nat.zero_div, Nat.zero_mod, ih]
    rw [← List.replicate_succ' k 0]

theorem toDigitsFix_mul_add (b j : Nat) : ∀ k x y, y < b ^ k →
    toDigitsFix b (j + k) (x * b ^ k + y) = toDigitsFix b j x ++ toDigitsFix b k y := by
  intro k
  induction k with
  | zero =>
    intro x y hy
    have hy0 : y = 0 := by simpa using hy
    subst hy0
    simp [toDigitsFix]
  | succ k ih =>
    intro x y hy
    have hb : 0 < b := by
      rcases Nat.eq_zero_or_pos b with hb0 | hb0
      · subst hb0; simp at hy
      · exact hb0
    have hstep : j + (k + 1) = (j + k) + 1 := by omega
    rw [hstep]
    simp only [toDigitsFix]
    have hdiv : (x * b ^ (k + 1) + y) / b = x * b ^ k + y / b := by
      rw [pow_succ, ← Nat.mul_assoc]
      rw [Nat.add_comm]
      rw [Nat.add_mul_div_right _ _ hb]
      omega
    have hmod : (x * b ^ (k + 1) + y) % b = y % b := by
      rw [pow_succ, ← Nat.mul_assoc]
      rw [Nat.add_comm, Nat.add_mul_mod_self_right]
    have hyb : y / b < b ^ k := by
      rw [Nat.div_lt_iff_lt_mul hb]
      calc y < b ^ (k + 1) := hy
        _ = b ^ k * b := pow_succ b k
    rw [hdiv, hmod, ih x (y / b) hyb, List.append_assoc]

theorem toDigitsFix_fromDigits (b : Nat) (ds : List Nat) (hd : ∀ d ∈ ds, d < b) :
    toDigitsFix b ds.length (fromDigits b ds) = ds := by
  induction ds using List.reverseRecOn with
  | nil => rfl
  | append_singleton ds d ih =>
    have hdb : d < b := hd d (by simp)
    have hb : 0 < b := by omega
    have hval : fromDigits b (ds ++ [d]) = fromDigits b ds * b + d := by
      rw [fromDigits_append]
      simp [fromDigits]
    rw [hval]
    simp only [List.length_append, List.length_singleton, toDigitsFix]
    have hdiv : (fromDigits b ds * b + d) / b = fromDigits b ds := by
      rw [Nat.mul_comm (fromDigits b ds) b, Nat.mul_add_div hb, Nat.div_eq_of_lt hdb]
      omega
    have hmod : (fromDigits b ds * b + d) % b = d := by
      rw [Nat.add_comm, Nat.add_mul_mod_self_right, Nat.mod_eq_of_lt hdb]
    rw [hdiv, hmod, ih (fun x hx => hd x (by simp [hx]))]

theorem mem_natToDigitsCore_lt (b : Nat) (hb : 0 < b) : ∀ fuel n, ∀ d ∈ natToDigitsCore b fuel n, d < b := by
  intro fuel
  induction fuel with
  | zero => intro n d h; cases h
  | succ fuel ih =>
    intro n d h
    simp only [natToDigitsCore] at h
    by_cases hn : n = 0
    · rw [if_pos hn] at h; cases h
    · rw [if_neg hn] at h
      simp only [List.mem_append, List.mem_singleton] at h
      rcases h with h | h
      · exact ih _ d h
      · subst h; exact Nat.mod_lt _ hb

theorem natToDigitsCore_length_le (b : Nat) (hb : 2 ≤ b) : ∀ fuel k n, n ≤ fuel → n < b ^ k →
    (natToDigitsCore b fuel n).length ≤ k := by
  intro fuel
  induction fuel with
  | zero => intro k n _ _; simp [natToDigitsCore]
  | succ fuel ih =>
    intro k n h1 h2
    simp only [natToDigitsCore]
    by_cases hn : n = 0
    · rw [if_pos hn]; simp
    · rw [if_neg hn]
      cases k with
      | zero => simp at h2; omega
      | succ k =>
        simp only [List.length_append, List.length_singleton]
        have hdivfuel : n / b ≤ fuel := by
          have : n / b < n := Nat.div_lt_self (by omega) (by omega)
          omega
        have hdivpow : n / b < b ^ k := by
          rw [Nat.div_lt_iff_lt_mul (by omega : 0 < b)]
          calc n < b ^ (k + 1) := h2
            _ = b ^ k * b := pow_succ b k
        have := ih k (n / b) hdivfuel hdivpow
        omega

theorem map_leftpad (f : α → β) (n : Nat) (a : α) (l : List α) :
    (List.leftpad n a l).map f = List.leftpad n (f a) (l.map f) := by
  simp [List.leftpad, List.map_append, List.map_replicate]

theorem leftpad_append_singleton (n : Nat) (a : α) (xs : List α) (d : α) (h : xs.length ≤ n) :
    List.leftpad (n + 1) a (xs ++ [d]) = List.leftpad n a xs ++ [d] := by
  have hc : n + 1 - (xs.length + 1) = n - xs.length := by omega
  simp [List.leftpad, List.length_append, hc, List.append_assoc]

theorem leftpad_natToDigitsCore (b : Nat) (hb : 2 ≤ b) : ∀ fuel k n, n ≤ fuel → n < b ^ k →
    List.leftpad k 0 (natToDigitsCore b fuel n) = toDigitsFix b k n := by
  intro fuel
  induction fuel with
  | zero =>
    intro k n h1 _
    have hn : n = 0 := by omega
    subst hn
    simp [natToDigitsCore, List.leftpad, toDigitsFix_zero_val]
  | succ fuel ih =>
    intro k n h1 h2
    by_cases hn : n = 0
    · subst hn
      simp [natToDigitsCore, List.leftpad, toDigitsFix_zero_val]
    · cases k with
      | zero => simp at h2; omega
      | succ k =>
        simp only [natToDigitsCore, if_neg hn, toDigitsFix]
        have hdivfuel : n / b ≤ fuel := by
          have : n / b < n := Nat.div_lt_self (by omega) (by omega)
          omega
        have hdivpow : n / b < b ^ k := by
          rw [Nat.div_lt_iff_lt_mul (by omega : 0 < b)]
          calc n < b ^ (k + 1) := h2
            _ = b ^ k * b := pow_succ b k
        rw [leftpad_append_singleton _ _ _ _ (natToDigitsCore_length_le b hb fuel k (n / b) hdivfuel hdivpow)]
        rw [ih k (n / b) hdivfuel hdivpow]

theorem leftpad_natToDigits (b k n : Nat) (hb : 2 ≤ b) (hk : 1 ≤ k) (hn : n < b ^ k) :
    List.leftpad k 0 (natToDigits b n) = toDigitsFix b k n := by
  unfold natToDigits
  by_cases h0 : n = 0
  · subst h0
    rw [if_pos rfl]
    obtain ⟨k', rfl⟩ : ∃ k', k = k' + 1 := ⟨k - 1, by omega⟩
    simp [List.leftpad, toDigitsFix_zero_val, List.replicate_succ' k' (0 : Nat)]
  · rw [if_neg h0]
    exact leftpad_natToDigitsCore b hb n k n le_rfl hn

theorem mem_natToDigits_lt (b n : Nat) (hb : 2 ≤ b) : ∀ d ∈ natToDigits b n, d < b := by
  unfold natToDigits
  by_cases h0 : n = 0
  · rw [if_pos h0]; intro d h; simp at h; omega
  · rw [if_neg h0]; exact mem_natToDigitsCore_lt b (by omega) n n

theorem fromDigits_replicate_zero (b : Nat) (l : List Nat) : ∀ j,
    fromDigits b (List.replicate j 0 ++ l) = fromDigits b l := by
  intro j
  induction j with
  | zero => simp
  | succ j ih =>
    simp only [List.replicate_succ, List.cons_append, fromDigits, List.foldl_cons] at *
    simpa using ih

theorem fromDigits_natToDigits (b n : Nat) (hb : 2 ≤ b) :
    fromDigits b (natToDigits b n) = n := by
  have hpow : n < b ^ (n + 1) := by
    calc n < b ^ n := Nat.lt_pow_self (by omega) n
      _ ≤ b ^ (n + 1) := Nat.pow_le_pow_right (by omega) (by omega)
  have h1 := leftpad_natToDigits b (n + 1) n hb (by omega) hpow
  have h2 := fromDigits_toDigitsFix b (n + 1) n hpow
  calc fromDigits b (natToDigits b n)
      = fromDigits b (List.leftpad (n + 1) 0 (natToDigits b n)) := by
        simp [List.leftpad, fromDigits_replicate_zero]
    _ = n := by rw [h1]; exact h2

/-! ### Lemmas about alphabet lookup and partial mapping -/

theorem alphIdx_lt (c : Char) : ∀ (al : List Char) i, alphIdx al c = some i → i < al.length := by
  intro al
  induction al with
  | nil => intro i h; cases h
  | cons x xs ih =>
    intro i h
    simp only [alphIdx] at h
    by_cases hx : x = c
    · rw [if_pos hx] at h; cases h; simp
    · rw [if_neg hx] at h
      cases hidx : alphIdx xs c with
      | none => rw [hidx] at h; cases h
      | some j =>
        rw [hidx] at h
        simp only [Option.map_some'] at h
        cases h
        have := ih j hidx
        simp only [List.length_cons]
        omega

theorem mapOption_map_eq_some (f : α → Option β) (g : β → α) (ds : List β)
    (h : ∀ d ∈ ds, f (g d) = some d) : mapOption f (ds.map g) = some ds := by
  induction ds with
  | nil => rfl
  | cons d ds ih =>
    simp only [List.map_cons, mapOption]
    rw [h d (List.mem_cons_self d ds), ih (fun x hx => h x (List.mem_cons_of_mem d hx))]

theorem mapOption_isSome (f : α → Option β) (P : β → Prop) : ∀ (l : List α),
    (∀ a ∈ l, ∃ d, f a = some d ∧ P d) →
    ∃ ds, mapOption f l = some ds ∧ ds.length = l.length ∧ ∀ d ∈ ds, P d := by
  intro l
  induction l with
  | nil => intro _; exact ⟨[], rfl, rfl, by simp⟩
  | cons x xs ih =>
    intro h
    obtain ⟨d, hfx, hPd⟩ := h x (List.mem_cons_self x xs)
    obtain ⟨ds, hds, hlen, hP⟩ := ih (fun a ha => h a (List.mem_cons_of_mem x ha))
    refine ⟨d :: ds, ?_, by simp [hlen], ?_⟩
    · simp only [mapOption, hfx, hds]
    · intro e he
      rcases List.mem_cons.mp he with he | he
      · subst he; exact hPd
      · exact hP e he

theorem mapOption_length (f : α → Option β) : ∀ (l : List α) ds,
    mapOption f l = some ds → ds.length = l.length := by
  intro l
  induction l with
  | nil => intro ds h; cases h; rfl
  | cons x xs ih =>
    intro ds h
    simp only [mapOption] at h
    cases hfx : f x with
    | none => rw [hfx] at h; cases h
    | some y =>
      rw [hfx] at h
      cases hxs : mapOption f xs with
      | none => rw [hxs] at h; cases h
      | some ys =>
        rw [hxs] at h
        cases h
        simp [ih ys hxs]

theorem mapOption_mem (f : α → Option β) : ∀ (l : List α) ds,
    mapOption f l = some ds → ∀ d ∈ ds, ∃ a ∈ l, f a = some d := by
  intro l
  induction l with
  | nil => intro ds h d hd; cases h; cases hd
  | cons x xs ih =>
    intro ds h d hd
    simp only [mapOption] at h
    cases hfx : f x with
    | none => rw [hfx] at h; cases h
    | some y =>
      rw [hfx] at h
      cases hxs : mapOption f xs with
      | none => rw [hxs] at h; cases h
      | some ys =>
        rw [hxs] at h
        cases h
        rcases List.mem_cons.mp hd with hd | hd
        · subst hd; exact ⟨x, List.mem_cons_self x xs, hfx⟩
        · obtain ⟨a, ha, hfa⟩ := ih ys hxs d hd
          exact ⟨a, List.mem_cons_of_mem x ha, hfa⟩

theorem mapOption_append_split (f : α → Option β) : ∀ (l₁ l₂ : List α) ds,
    mapOption f (l₁ ++ l₂) = some ds →
    ∃ d₁ d₂, mapOption f l₁ = some d₁ ∧ mapOption f l₂ = some d₂ ∧ ds = d₁ ++ d₂ := by
  intro l₁
  induction l₁ with
  | nil => intro l₂ ds h; exact ⟨[], ds, rfl, h, rfl⟩
  | cons x xs ih =>
    intro l₂ ds h
    simp only [List.cons_append, mapOption, List.append_eq] at h
    cases hfx : f x with
    | none => rw [hfx] at h; cases h
    | some y =>
      rw [hfx] at h
      cases hxs : mapOption f (xs ++ l₂) with
      | none => rw [hxs] at h; cases h
      | some ys =>
        rw [hxs] at h
        cases h
        obtain ⟨d₁, d₂, h1, h2, rfl⟩ := ih l₂ ys hxs
        refine ⟨y :: d₁, d₂, ?_, h2, rfl⟩
        simp only [mapOption, hfx, h1]

/-! ### Character-level facts, established by finite checking -/

theorem alphIdx_hexAlph_getD : ∀ d < 16, alphIdx hexAlph (hexAlph.getD d '?') = some d := by decide

theorem alphIdx_b32Alph_getD : ∀ d < 32, alphIdx b32Alph (b32Alph.getD d '?') = some d := by decide

theorem b36idx_getD : ∀ d < 36, b36idx (b36Alph.getD d '?') = (d : Int) := by decide

theorem lower_hexAlph_getD : ∀ d < 16, asciiToLower (hexAlph.getD d '?') = hexAlph.getD d '?' := by decide

theorem lower_b36Alph_getD : ∀ d < 36, asciiToLower (b36Alph.getD d '?') = b36Alph.getD d '?' := by decide

theorem upper_lower_b32Alph_getD : ∀ d < 32,
    asciiToUpper (asciiToLower (b32Alph.getD d '?')) = b32Alph.getD d '?' := by decide

theorem lower_idem_b32Alph_getD : ∀ d < 32,
    asciiToLower (asciiToLower (b32Alph.getD d '?')) = asciiToLower (b32Alph.getD d '?') := by decide

theorem b32Alph_getD_ne_pad : ∀ d < 32, b32Alph.getD d '?' ≠ '=' := by decide

theorem b36Alph_getD_eq_hexAlph_getD : ∀ d < 16, b36Alph.getD d '?' = hexAlph.getD d '?' := by decide

theorem alphIdx_getD_hexAlph : ∀ d < 16, (alphIdx hexAlph (hexAlph.getD d '?')).getD 0 = d := by decide

theorem hexAlph_alphIdx_isSome : ∀ c ∈ hexAlph, (alphIdx hexAlph c).isSome = true := by decide

theorem hexAlph_mem_getD : ∀ d < 16, hexAlph.getD d '?' ∈ hexAlph := by decide

theorem zeroChar_mem_hexAlph : '0' ∈ hexAlph := by decide

/-! ### Small list helpers -/

theorem take_len_append (l₁ l₂ : List α) : (l₁ ++ l₂).take l₁.length = l₁ := by
  induction l₁ with
  | nil => rfl
  | cons x xs ih => simp [ih]

theorem drop_len_append (l₁ l₂ : List α) : (l₁ ++ l₂).drop l₁.length = l₂ := by
  induction l₁ with
  | nil => rfl
  | cons x xs ih => simp [ih]

theorem dropWhile_eq_self_of_all (p : α → Bool) (l : List α) (h : ∀ a ∈ l, p a = false) :
    l.dropWhile p = l := by
  cases l with
  | nil => rfl
  | cons x xs => simp [List.dropWhile_cons, h x (List.mem_cons_self x xs)]

/-! ### Properties of the scure-base codec models -/

theorem radix2encode4_eq (bs : List Nat) :
    radix2encode 4 bs = toDigitsFix 16 (2 * bs.length) (fromDigits 256 bs) := by
  simp only [radix2encode]
  have hA : (8 * bs.length + (4 - 1)) / 4 = 2 * bs.length := by omega
  rw [hA]
  have hB : 4 * (2 * bs.length) - 8 * bs.length = 0 := by omega
  rw [hB, pow_zero, mul_one]
  norm_num

theorem hex_encode_eq_map (bs : List Nat) :
    hex_encode bs =
      (toDigitsFix 16 (2 * bs.length) (fromDigits 256 bs)).map (fun d => hexAlph.getD d '?') := by
  unfold hex_encode
  rw [radix2encode4_eq]

theorem hex_encode_length (bs : List Nat) : (hex_encode bs).length = 2 * bs.length := by
  rw [hex_encode_eq_map]
  simp [length_toDigitsFix]

theorem lower_hex_encode (bs : List Nat) : (hex_encode bs).map asciiToLower = hex_encode bs := by
  rw [hex_encode_eq_map, List.map_map]
  apply List.map_congr_left
  intro d hd
  have hlt : d < 16 := mem_toDigitsFix_lt 16 _ (by omega) _ d hd
  simpa using lower_hexAlph_getD d hlt

theorem taggedHex_eq (bs : List Nat) : taggedHex bs = hex_encode bs := by
  unfold taggedHex
  exact lower_hex_encode bs


theorem hex_decode_encode (bs : List Nat) (h : ∀ x ∈ bs, x < 256) :
    hex_decode (hex_encode bs) = some bs := by
  rw [hex_encode_eq_map]
  unfold hex_decode
  have hdlt : ∀ d ∈ toDigitsFix 16 (2 * bs.length) (fromDigits 256 bs), d < 16 :=
    mem_toDigitsFix_lt 16 _ (by omega) _
  rw [mapOption_map_eq_some _ _ _ (fun d hd => alphIdx_hexAlph_getD d (hdlt d hd))]
  simp only [Option.some_bind]
  unfold radix2decode
  have hany : (toDigitsFix 16 (2 * bs.length) (fromDigits 256 bs)).any
      (fun d => decide (2 ^ 4 ≤ d)) = false := by
    simp only [List.any_eq_false, decide_eq_false_iff_not, not_le]
    intro d hd
    have h16 := hdlt d hd
    norm_num
    omega
  rw [hany]
  simp only [length_toDigitsFix]
  have hm : 4 * (2 * bs.length) % 8 = 0 := by omega
  have hd8 : 4 * (2 * bs.length) / 8 = bs.length := by omega
  have hv : fromDigits (2 ^ 4) (toDigitsFix 16 (2 * bs.length) (fromDigits 256 bs))
      = fromDigits 256 bs := by
    have hlt : fromDigits 256 bs < 16 ^ (2 * bs.length) := by
      calc fromDigits 256 bs < 256 ^ bs.length := fromDigits_lt 256 bs h
        _ = 16 ^ (2 * bs.length) := by rw [pow_mul]; norm_num
    have hfd := fromDigits_toDigitsFix 16 (2 * bs.length) (fromDigits 256 bs) hlt
    norm_num
    exact hfd
  rw [hm, hv, hd8]
  simp [toDigitsFix_fromDigits 256 bs h, Nat.mod_one]

theorem hex_decode_isSome (s : List Char) (hmem : ∀ c ∈ s, c ∈ hexAlph) (heven : s.length % 2 = 0) :
    ∃ bs, hex_decode s = some bs ∧ bs.length = s.length / 2 ∧ ∀ x ∈ bs, x < 256 := by
  unfold hex_decode
  have hsome : ∀ c ∈ s, ∃ d, alphIdx hexAlph c = some d ∧ d < 16 := by
    intro c hc
    have h1 : (alphIdx hexAlph c).isSome = true := hexAlph_alphIdx_isSome c (hmem c hc)
    obtain ⟨d, hd⟩ := Option.isSome_iff_exists.mp h1
    refine ⟨d, hd, ?_⟩
    have := alphIdx_lt c hexAlph d hd
    simpa using this
  obtain ⟨ds, hds, hlen, hdlt⟩ := mapOption_isSome _ _ s hsome
  rw [hds]
  simp only [Option.some_bind]
  unfold radix2decode
  have hany : ds.any (fun d => decide (2 ^ 4 ≤ d)) = false := by
    simp only [List.any_eq_false, decide_eq_false_iff_not, not_le]
    intro d hd
    have := hdlt d hd
    norm_num
    omega
  simp only [hany, hlen]
  have hm : 4 * s.length % 8 = 0 := by omega
  have hd8 : 4 * s.length / 8 = s.length / 2 := by omega
  rw [hm, hd8]
  refine ⟨toDigitsFix 256 (s.length / 2) (fromDigits (2 ^ 4) ds / 2 ^ 0), ?_, ?_, ?_⟩
  · simp [Nat.mod_one]
  · simp [length_toDigitsFix]
  · exact mem_toDigitsFix_lt 256 _ (by omega) _

theorem radix2encode5_eq40 (bs : List Nat) (h : bs.length = 40) :
    radix2encode 5 bs = toDigitsFix 32 64 (fromDigits 256 bs) := by
  simp only [radix2encode, h]
  norm_num

theorem base32_encode_eq40 (bs : List Nat) (h : bs.length = 40) :
    base32_encode bs = (toDigitsFix 32 64 (fromDigits 256 bs)).map (fun d => b32Alph.getD d '?') := by
  unfold base32_encode
  rw [radix2encode5_eq40 bs h]
  simp [length_toDigitsFix]

theorem base32_decode_encode40 (bs : List Nat) (h40 : bs.length = 40) (hb : ∀ x ∈ bs, x < 256) :
    base32_decode (base32_encode bs) = some bs := by
  rw [base32_encode_eq40 bs h40]
  simp only [base32_decode]
  have hdlt : ∀ d ∈ toDigitsFix 32 64 (fromDigits 256 bs), d < 32 :=
    mem_toDigitsFix_lt 32 _ (by omega) _
  have hlen : ((toDigitsFix 32 64 (fromDigits 256 bs)).map (fun d => b32Alph.getD d '?')).length = 64 := by
    simp [length_toDigitsFix]
  rw [hlen]
  rw [if_neg (by norm_num)]
  have hnopad : ∀ c ∈ (toDigitsFix 32 64 (fromDigits 256 bs)).map (fun d => b32Alph.getD d '?'),
      (decide (c = '=')) = false := by
    intro c hc
    simp only [List.mem_map] at hc
    obtain ⟨d, hd, rfl⟩ := hc
    simpa using b32Alph_getD_ne_pad d (hdlt d hd)
  have hrev : ((toDigitsFix 32 64 (fromDigits 256 bs)).map (fun d => b32Alph.getD d '?')).reverse.dropWhile
      (fun c => decide (c = '=')) =
      ((toDigitsFix 32 64 (fromDigits 256 bs)).map (fun d => b32Alph.getD d '?')).reverse := by
    apply dropWhile_eq_self_of_all
    intro a ha
    exact hnopad a (List.mem_reverse.mp ha)
  rw [hrev, List.reverse_reverse]
  rw [mapOption_map_eq_some _ _ _ (fun d hd => alphIdx_b32Alph_getD d (hdlt d hd))]
  simp only [Option.some_bind]
  have hany : (toDigitsFix 32 64 (fromDigits 256 bs)).any (fun d => decide (2 ^ 5 ≤ d)) = false := by
    simp only [List.any_eq_false, decide_eq_false_iff_not, not_le]
    intro d hd
    have := hdlt d hd
    norm_num
    omega
  simp only [radix2decode, hany, length_toDigitsFix]
  have hv : fromDigits (2 ^ 5) (toDigitsFix 32 64 (fromDigits 256 bs)) = fromDigits 256 bs := by
    have hlt : fromDigits 256 bs < 32 ^ 64 := by
      calc fromDigits 256 bs < 256 ^ bs.length := fromDigits_lt 256 bs hb
        _ = 32 ^ 64 := by rw [h40]; norm_num
    have hfd := fromDigits_toDigitsFix 32 64 (fromDigits 256 bs) hlt
    norm_num
    exact hfd
  rw [hv]
  have hout := toDigitsFix_fromDigits 256 bs hb
  rw [h40] at hout
  simp [hout, Nat.mod_one]

/-! ### Normalization and dispatch structure of parseAddress -/

theorem normalizeAddress_scheme_append (s : List Char) :
    normalizeAddress ("ipns://".toList ++ s) = s.map asciiToLower := by
  unfold normalizeAddress stripScheme
  have h7 : (7 : Nat) = ("ipns://".toList).length := rfl
  rw [h7, take_len_append, if_pos rfl, drop_len_append]

theorem normalizeAddress_no_scheme (s : List Char) (h : s.take 7 ≠ "ipns://".toList) :
    normalizeAddress s = s.map asciiToLower := by
  unfold normalizeAddress stripScheme
  rw [if_neg h]

theorem intermediateHex_k (a : List Char) (h : (normalizeAddress a).head? = some 'k') :
    intermediateHex a = Except.ok (List.leftpad 80 '0' (jsIntToHex
      (((normalizeAddress a).drop 1).foldl (fun r c => r * 36 + b36idx c) (0 : Int)))) := by
  unfold intermediateHex intermediateHexCore
  rw [if_pos h]

theorem intermediateHex_b (a : List Char) (h : (normalizeAddress a).head? = some 'b') :
    intermediateHex a = (match base32_decode (((normalizeAddress a).drop 1).map asciiToUpper) with
      | some bytes => Except.ok (hex_encode bytes)
      | none => Except.error ParseError.scureError) := by
  unfold intermediateHex intermediateHexCore
  rw [if_neg (by rw [h]; simp), if_pos h]

theorem intermediateHex_f (a : List Char) (h : (normalizeAddress a).head? = some 'f') :
    intermediateHex a = Except.ok ((normalizeAddress a).drop 1) := by
  unfold intermediateHex intermediateHexCore
  rw [if_neg (by rw [h]; simp), if_neg (by rw [h]; simp), if_pos h]

theorem intermediateHex_else (a : List Char) (hk : (normalizeAddress a).head? ≠ some 'k')
    (hb : (normalizeAddress a).head? ≠ some 'b') (hf : (normalizeAddress a).head? ≠ some 'f') :
    intermediateHex a = Except.error ParseError.unsupportedFormat := by
  unfold intermediateHex intermediateHexCore
  rw [if_neg hk, if_neg hb, if_neg hf]

theorem parseAddress_ok_of (a : List Char) (hk : List Char) (bs : List Nat)
    (hikey : intermediateHex a = Except.ok hk) (htake : hk.take 16 = TAG_HEX)
    (hlen : hk.length = 80) (hdec : hex_decode hk = some bs) :
    parseAddress a = Except.ok bs := by
  unfold parseAddress
  rw [hikey]
  dsimp only
  rw [if_pos ⟨htake, hlen⟩, hdec]

theorem parseAddress_invalid_of (a : List Char) (hk : List Char)
    (hikey : intermediateHex a = Except.ok hk)
    (hfail : ¬(hk.take 16 = TAG_HEX ∧ hk.length = 80)) :
    parseAddress a = Except.error (ParseError.invalidKeyTag hk) := by
  unfold parseAddress
  rw [hikey]
  dsimp only
  rw [if_neg hfail]

theorem parseAddress_scure_of (a : List Char) (hk : List Char)
    (hikey : intermediateHex a = Except.ok hk) (htake : hk.take 16 = TAG_HEX)
    (hlen : hk.length = 80) (hdec : hex_decode hk = none) :
    parseAddress a = Except.error ParseError.scureError := by
  unfold parseAddress
  rw [hikey]
  dsimp only
  rw [if_pos ⟨htake, hlen⟩, hdec]

theorem parseAddress_error_of (a : List Char) (e : ParseError)
    (h : intermediateHex a = Except.error e) : parseAddress a = Except.error e := by
  unfold parseAddress
  rw [h]

theorem foldl_b36_eq (ds : List Nat) (hd : ∀ d ∈ ds, d < 36) : ∀ i : Nat,
    (ds.map (fun d => b36Alph.getD d '?')).foldl (fun r c => r * 36 + b36idx c) (i : Int)
      = ((ds.foldl (fun a d => a * 36 + d) i : Nat) : Int) := by
  induction ds with
  | nil => intro i; rfl
  | cons d ds ih =>
    intro i
    simp only [List.map_cons, List.foldl_cons]
    rw [b36idx_getD d (hd d (List.mem_cons_self d ds))]
    have hcast : ((i : Int) * 36 + (d : Int)) = ((i * 36 + d : Nat) : Int) := by
      push_cast
      ring
    rw [hcast]
    exact ih (fun x hx => hd x (List.mem_cons_of_mem d hx)) (i * 36 + d)

/-! ### Structure of the encoded tagged key -/

theorem hex_encode_buildPublic (p : List Nat) (hlen : p.length = 32) (hbyte : ∀ x ∈ p, x < 256) :
    hex_encode (buildPublic p)
      = TAG_HEX ++ (toDigitsFix 16 64 (fromDigits 256 p)).map (fun d => hexAlph.getD d '?') := by
  rw [hex_encode_eq_map]
  unfold buildPublic
  have hlen40 : (PROTOCOL_TAG ++ p).length = 40 := by simp [PROTOCOL_TAG, hlen]
  rw [hlen40]
  have happ : fromDigits 256 (PROTOCOL_TAG ++ p)
      = fromDigits 256 PROTOCOL_TAG * 16 ^ 64 + fromDigits 256 p := by
    rw [fromDigits_append, hlen]
    norm_num
  rw [happ]
  have hnp : fromDigits 256 p < 16 ^ 64 := by
    calc fromDigits 256 p < 256 ^ p.length := fromDigits_lt 256 p hbyte
      _ ≤ 16 ^ 64 := by rw [hlen]; norm_num
  rw [show 2 * 40 = 16 + 64 from rfl,
    toDigitsFix_mul_add 16 16 64 (fromDigits 256 PROTOCOL_TAG) (fromDigits 256 p) hnp,
    List.map_append]
  congr 1

theorem buildPublic_bytes_lt (p : List Nat) (hbyte : ∀ x ∈ p, x < 256) :
    ∀ x ∈ buildPublic p, x < 256 := by
  intro x hx
  unfold buildPublic at hx
  rcases List.mem_append.mp hx with hx | hx
  · fin_cases hx <;> norm_num
  · exact hbyte x hx

theorem buildPublic_length (p : List Nat) (hlen : p.length = 32) :
    (buildPublic p).length = 40 := by
  simp [buildPublic, PROTOCOL_TAG, hlen]

theorem hex_encode_buildPublic_take (p : List Nat) (hlen : p.length = 32)
    (hbyte : ∀ x ∈ p, x < 256) : (hex_encode (buildPublic p)).take 16 = TAG_HEX := by
  rw [hex_encode_buildPublic p hlen hbyte, show (16 : Nat) = TAG_HEX.length from rfl,
    take_len_append]

theorem hex_encode_buildPublic_length (p : List Nat) (hlen : p.length = 32) :
    (hex_encode (buildPublic p)).length = 80 := by
  rw [hex_encode_length, buildPublic_length p hlen]

theorem parseAddress_addrBase16 (p : List Nat) (hlen : p.length = 32) (hbyte : ∀ x ∈ p, x < 256) :
    parseAddress (addrBase16 (buildPublic p)) = Except.ok (buildPublic p) := by
  have htag : taggedHex (buildPublic p) = hex_encode (buildPublic p) := taggedHex_eq _
  have hsplit : addrBase16 (buildPublic p)
      = "ipns://".toList ++ ('f' :: taggedHex (buildPublic p)) := rfl
  have hnorm : normalizeAddress (addrBase16 (buildPublic p))
      = 'f' :: hex_encode (buildPublic p) := by
    rw [hsplit, normalizeAddress_scheme_append]
    simp only [List.map_cons]
    rw [htag, lower_hex_encode, show asciiToLower 'f' = 'f' from by decide]
  have hhead : (normalizeAddress (addrBase16 (buildPublic p))).head? = some 'f' := by
    rw [hnorm]; rfl
  have hih := intermediateHex_f _ hhead
  rw [hnorm] at hih
  have hih2 : intermediateHex (addrBase16 (buildPublic p))
      = Except.ok (hex_encode (buildPublic p)) := by rw [hih]; rfl
  exact parseAddress_ok_of _ _ _ hih2 (hex_encode_buildPublic_take p hlen hbyte)
    (hex_encode_buildPublic_length p hlen)
    (hex_decode_encode _ (buildPublic_bytes_lt p hbyte))

theorem parseAddress_addrBase32 (p : List Nat) (hlen : p.length = 32) (hbyte : ∀ x ∈ p, x < 256) :
    parseAddress (addrBase32 (buildPublic p)) = Except.ok (buildPublic p) := by
  have h40 : (buildPublic p).length = 40 := buildPublic_length p hlen
  have hb : ∀ x ∈ buildPublic p, x < 256 := buildPublic_bytes_lt p hbyte
  have henc := base32_encode_eq40 (buildPublic p) h40
  have hsplit : addrBase32 (buildPublic p)
      = "ipns://".toList ++ ('b' :: (base32_encode (buildPublic p)).map asciiToLower) := by
    unfold addrBase32
    rw [show "ipns://b".toList = "ipns://".toList ++ ['b'] from rfl, List.append_assoc,
      List.singleton_append]
  have hll : ((base32_encode (buildPublic p)).map asciiToLower).map asciiToLower
      = (base32_encode (buildPublic p)).map asciiToLower := by
    rw [henc]
    simp only [List.map_map]
    apply List.map_congr_left
    intro d hd
    have hdlt : d < 32 := mem_toDigitsFix_lt 32 _ (by omega) _ d hd
    simpa using lower_idem_b32Alph_getD d hdlt
  have hnorm : normalizeAddress (addrBase32 (buildPublic p))
      = 'b' :: (base32_encode (buildPublic p)).map asciiToLower := by
    rw [hsplit, normalizeAddress_scheme_append]
    simp only [List.map_cons]
    rw [show asciiToLower 'b' = 'b' from by decide, hll]
  have hhead : (normalizeAddress (addrBase32 (buildPublic p))).head? = some 'b' := by
    rw [hnorm]; rfl
  have hupper : ((normalizeAddress (addrBase32 (buildPublic p))).drop 1).map asciiToUpper
      = base32_encode (buildPublic p) := by
    rw [hnorm]
    show ((base32_encode (buildPublic p)).map asciiToLower).map asciiToUpper
      = base32_encode (buildPublic p)
    rw [henc, List.map_map, List.map_map]
    apply List.map_congr_left
    intro d hd
    have hdlt : d < 32 := mem_toDigitsFix_lt 32 _ (by omega) _ d hd
    simpa using upper_lower_b32Alph_getD d hdlt
  have hih := intermediateHex_b _ hhead
  rw [hupper, base32_decode_encode40 (buildPublic p) h40 hb] at hih
  have hih2 : intermediateHex (addrBase32 (buildPublic p))
      = Except.ok (hex_encode (buildPublic p)) := by rw [hih]
  exact parseAddress_ok_of _ _ _ hih2 (hex_encode_buildPublic_take p hlen hbyte)
    (hex_encode_buildPublic_length p hlen) (hex_decode_encode _ hb)

theorem jsIntToHex_natCast (n : Nat) :
    jsIntToHex ((n : Nat) : Int) = (natToDigits 16 n).map (fun d => b36Alph.getD d '?') := by
  unfold jsIntToHex
  rw [if_neg (by omega)]
  simp

theorem parseAddress_addrBase36 (p : List Nat) (hlen : p.length = 32) (hbyte : ∀ x ∈ p, x < 256) :
    parseAddress (addrBase36 (buildPublic p)) = Except.ok (buildPublic p) := by
  have h40 : (buildPublic p).length = 40 := buildPublic_length p hlen
  have hb : ∀ x ∈ buildPublic p, x < 256 := buildPublic_bytes_lt p hbyte
  have hlt80 : fromDigits 256 (buildPublic p) < 16 ^ 80 := by
    calc fromDigits 256 (buildPublic p) < 256 ^ (buildPublic p).length :=
        fromDigits_lt 256 _ hb
      _ ≤ 16 ^ 80 := by rw [h40]; norm_num
  have hjs : jsHexToNat (taggedHex (buildPublic p)) = fromDigits 256 (buildPublic p) := by
    unfold jsHexToNat
    rw [taggedHex_eq, hex_encode_eq_map, List.map_map]
    have hdl : ∀ d ∈ toDigitsFix 16 (2 * (buildPublic p).length) (fromDigits 256 (buildPublic p)),
        d < 16 := mem_toDigitsFix_lt 16 _ (by omega) _
    rw [List.map_congr_left (fun d hd => by simpa using alphIdx_getD_hexAlph d (hdl d hd))]
    simp only [List.map_id']
    apply fromDigits_toDigitsFix
    rw [h40]
    exact hlt80
  have hdigits : ∀ d ∈ natToDigits 36 (fromDigits 256 (buildPublic p)), d < 36 :=
    mem_natToDigits_lt _ _ (by omega)
  have hsplit : addrBase36 (buildPublic p) = "ipns://".toList ++
      ('k' :: (natToDigits 36 (jsHexToNat (taggedHex (buildPublic p)))).map
        (fun d => b36Alph.getD d '?')) := by
    unfold addrBase36
    rw [show "ipns://k".toList = "ipns://".toList ++ ['k'] from rfl, List.append_assoc,
      List.singleton_append]
  have hnorm : normalizeAddress (addrBase36 (buildPublic p)) = 'k' ::
      (natToDigits 36 (fromDigits 256 (buildPublic p))).map (fun d => b36Alph.getD d '?') := by
    rw [hsplit, normalizeAddress_scheme_append]
    simp only [List.map_cons]
    rw [show asciiToLower 'k' = 'k' from by decide, hjs, List.map_map]
    congr 1
    apply List.map_congr_left
    intro d hd
    simpa using lower_b36Alph_getD d (hdigits d hd)
  have hhead : (normalizeAddress (addrBase36 (buildPublic p))).head? = some 'k' := by
    rw [hnorm]; rfl
  have hfold : (((natToDigits 36 (fromDigits 256 (buildPublic p))).map
      (fun d => b36Alph.getD d '?')).foldl (fun r c => r * 36 + b36idx c) (0 : Int))
      = ((fromDigits 256 (buildPublic p) : Nat) : Int) := by
    have hf := foldl_b36_eq _ hdigits 0
    rw [show ((0 : Nat) : Int) = (0 : Int) from rfl] at hf
    rw [hf]
    norm_cast
    show fromDigits 36 (natToDigits 36 (fromDigits 256 (buildPublic p)))
      = fromDigits 256 (buildPublic p)
    exact fromDigits_natToDigits 36 _ (by omega)
  have hih0 := intermediateHex_k _ hhead
  rw [hnorm] at hih0
  have hih : intermediateHex (addrBase36 (buildPublic p)) = Except.ok (List.leftpad 80 '0'
      (jsIntToHex (((natToDigits 36 (fromDigits 256 (buildPublic p))).map
        (fun d => b36Alph.getD d '?')).foldl (fun r c => r * 36 + b36idx c) (0 : Int)))) := by
    rw [hih0]; rfl
  rw [hfold, jsIntToHex_natCast] at hih
  have hpad : List.leftpad 80 '0' ((natToDigits 16 (fromDigits 256 (buildPublic p))).map
      (fun d => b36Alph.getD d '?')) = hex_encode (buildPublic p) := by
    have h16 : ∀ d ∈ natToDigits 16 (fromDigits 256 (buildPublic p)), d < 16 :=
      mem_natToDigits_lt _ _ (by omega)
    rw [List.map_congr_left (fun d hd => b36Alph_getD_eq_hexAlph_getD d (h16 d hd))]
    rw [show '0' = hexAlph.getD 0 '?' from rfl]
    rw [(map_leftpad (fun d => hexAlph.getD d '?') 80 0
      (natToDigits 16 (fromDigits 256 (buildPublic p)))).symm]
    rw [leftpad_natToDigits 16 80 _ (by omega) (by omega) hlt80]
    rw [hex_encode_eq_map, h40]
  rw [hpad] at hih
  exact parseAddress_ok_of _ _ _ hih (hex_encode_buildPublic_take p hlen hbyte)
    (hex_encode_buildPublic_length p hlen) (hex_decode_encode _ hb)

/-! ### Structure of successful parses -/

theorem take_eq_of_append (l₁ l₂ : List α) (n : Nat) (h : l₁.length = n) :
    (l₁ ++ l₂).take n = l₁ := by
  subst h
  exact take_len_append l₁ l₂

theorem parseAddress_ok_elim (a : List Char) (bs : List Nat) (h : parseAddress a = Except.ok bs) :
    ∃ hk, intermediateHex a = Except.ok hk ∧ hk.take 16 = TAG_HEX ∧ hk.length = 80 ∧
      hex_decode hk = some bs := by
  unfold parseAddress at h
  cases hik : intermediateHex a with
  | error e => rw [hik] at h; cases h
  | ok hk =>
    rw [hik] at h
    dsimp only at h
    by_cases hc : hk.take 16 = TAG_HEX ∧ hk.length = 80
    · rw [if_pos hc] at h
      cases hdec : hex_decode hk with
      | none => rw [hdec] at h; cases h
      | some bytes =>
        rw [hdec] at h
        cases h
        exact ⟨hk, rfl, hc.1, hc.2, hdec⟩
    · rw [if_neg hc] at h; cases h

theorem hex_decode_structure (hk : List Char) (bs : List Nat) (hdec : hex_decode hk = some bs)
    (hlen : hk.length = 80) (htake : hk.take 16 = TAG_HEX) :
    bs.length = 40 ∧ bs.take 8 = PROTOCOL_TAG := by
  have hsplit : hk = TAG_HEX ++ hk.drop 16 := by
    conv_lhs => rw [← List.take_append_drop 16 hk]
    rw [htake]
  rw [hsplit] at hdec
  have hdroplen : (hk.drop 16).length = 64 := by simp [hlen]
  unfold hex_decode at hdec
  cases hmo : mapOption (alphIdx hexAlph) (TAG_HEX ++ hk.drop 16) with
  | none => rw [hmo] at hdec; cases hdec
  | some ds =>
    rw [hmo] at hdec
    simp only [Option.some_bind] at hdec
    obtain ⟨d1, d2, hd1, hd2, rfl⟩ := mapOption_append_split _ _ _ ds hmo
    have hd1c : mapOption (alphIdx hexAlph) TAG_HEX
        = some [0, 1, 7, 2, 0, 0, 2, 4, 0, 8, 0, 1, 1, 2, 2, 0] := by decide
    rw [hd1c] at hd1
    injection hd1 with hd1
    subst hd1
    have hd2len : d2.length = 64 := by rw [mapOption_length _ _ _ hd2, hdroplen]
    have hd2lt : ∀ d ∈ d2, d < 16 := by
      intro d hd
      obtain ⟨c, _, hc⟩ := mapOption_mem _ _ _ hd2 d hd
      simpa using alphIdx_lt c hexAlph d hc
    have hany : (([0, 1, 7, 2, 0, 0, 2, 4, 0, 8, 0, 1, 1, 2, 2, 0] ++ d2).any
        (fun d => decide (2 ^ 4 ≤ d))) = false := by
      simp only [List.any_eq_false, decide_eq_false_iff_not, not_le]
      intro d hd
      rcases List.mem_append.mp hd with hd | hd
      · fin_cases hd <;> norm_num
      · have := hd2lt d hd
        norm_num
        omega
    have hlen80 : ([0, 1, 7, 2, 0, 0, 2, 4, 0, 8, 0, 1, 1, 2, 2, 0] ++ d2 : List Nat).length = 80 := by
      simp [hd2len]
    simp only [radix2decode, hany, hlen80] at hdec
    norm_num at hdec
    obtain ⟨-, hdec2⟩ := hdec
    have hd2v : fromDigits 16 d2 < 16 ^ 64 := by
      have := fromDigits_lt 16 d2 hd2lt
      rwa [hd2len] at this
    have hval : fromDigits 16
        (0 :: 1 :: 7 :: 2 :: 0 :: 0 :: 2 :: 4 :: 0 :: 8 :: 0 :: 1 :: 1 :: 2 :: 2 :: 0 :: d2)
        = 104145896136053280 * 256 ^ 32 + fromDigits 16 d2 := by
      have hl : (0 :: 1 :: 7 :: 2 :: 0 :: 0 :: 2 :: 4 :: 0 :: 8 :: 0 :: 1 :: 1 :: 2 :: 2 :: 0 :: d2)
          = [0, 1, 7, 2, 0, 0, 2, 4, 0, 8, 0, 1, 1, 2, 2, 0] ++ d2 := rfl
      rw [hl, fromDigits_append, hd2len,
        show fromDigits 16 ([0, 1, 7, 2, 0, 0, 2, 4, 0, 8, 0, 1, 1, 2, 2, 0] : List Nat)
          = 104145896136053280 from by decide]
      norm_num
    rw [hval] at hdec2
    have hsplit40 : toDigitsFix 256 40 (104145896136053280 * 256 ^ 32 + fromDigits 16 d2)
        = toDigitsFix 256 8 104145896136053280 ++ toDigitsFix 256 32 (fromDigits 16 d2) := by
      have h32 : fromDigits 16 d2 < 256 ^ 32 := by
        calc fromDigits 16 d2 < 16 ^ 64 := hd2v
          _ = 256 ^ 32 := by norm_num
      exact toDigitsFix_mul_add 256 8 32 _ _ h32
    rw [hsplit40] at hdec2
    rw [← hdec2]
    constructor
    · simp [length_toDigitsFix]
    · rw [take_eq_of_append _ _ 8 (by simp [length_toDigitsFix])]
      decide

/-! ### The base-36 and base-32 branches always produce decodable hex -/

theorem kbranch_valid (r : Int) (hk : List Char) (heq : hk = List.leftpad 80 '0' (jsIntToHex r))
    (htake : hk.take 16 = TAG_HEX) (hlen : hk.length = 80) :
    ∃ bs, hex_decode hk = some bs := by
  by_cases hr : r < 0
  · exfalso
    have hjs : jsIntToHex r = '-' :: (natToDigits 16 r.natAbs).map (fun d => b36Alph.getD d '?') := by
      unfold jsIntToHex
      rw [if_pos hr]
    rw [hjs] at heq
    have htake2 : hk.take 2 = ['0', '1'] := by
      have h22 : hk.take 2 = (hk.take 16).take 2 := by
        rw [List.take_take]
        norm_num
      rw [h22, htake]
      rfl
    rw [heq] at htake2
    simp only [List.leftpad] at htake2
    rcases hcase : 80 - (('-' :: (natToDigits 16 r.natAbs).map (fun d => b36Alph.getD d '?')).length)
      with _ | _ | j
    all_goals rw [hcase] at htake2
    · simp [List.take] at htake2
    · simp [List.replicate, List.take] at htake2
    · simp [List.replicate_succ, List.take] at htake2
  · push_neg at hr
    have hjs : jsIntToHex r = (natToDigits 16 r.toNat).map (fun d => b36Alph.getD d '?') := by
      unfold jsIntToHex
      rw [if_neg (by omega)]
    have hmem : ∀ c ∈ hk, c ∈ hexAlph := by
      intro c hc
      rw [heq, hjs] at hc
      simp only [List.leftpad, List.mem_append] at hc
      rcases hc with hc | hc
      · have hc0 : c = '0' := List.eq_of_mem_replicate hc
        subst hc0
        exact zeroChar_mem_hexAlph
      · simp only [List.mem_map] at hc
        obtain ⟨d, hd, rfl⟩ := hc
        have hdlt : d < 16 := mem_natToDigits_lt 16 r.toNat (by omega) d hd
        rw [b36Alph_getD_eq_hexAlph_getD d hdlt]
        exact hexAlph_mem_getD d hdlt
    obtain ⟨bs, hbs, _, _⟩ := hex_decode_isSome hk hmem (by omega)
    exact ⟨bs, hbs⟩

theorem hex_encode_valid (bytes : List Nat) : ∃ bs, hex_decode (hex_encode bytes) = some bs := by
  have hmem : ∀ c ∈ hex_encode bytes, c ∈ hexAlph := by
    rw [hex_encode_eq_map]
    intro c hc
    simp only [List.mem_map] at hc
    obtain ⟨d, hd, rfl⟩ := hc
    exact hexAlph_mem_getD d (mem_toDigitsFix_lt 16 _ (by omega) _ d hd)
  obtain ⟨bs, hbs, _, _⟩ := hex_decode_isSome _ hmem (by rw [hex_encode_length]; omega)
  exact ⟨bs, hbs⟩

theorem intermediateHex_b_elim (a : List Char) (hk : List Char)
    (hhead : (normalizeAddress a).head? = some 'b')
    (hik : intermediateHex a = Except.ok hk) : ∃ bytes, hk = hex_encode bytes := by
  rw [intermediateHex_b a hhead] at hik
  cases hb32 : base32_decode (((normalizeAddress a).drop 1).map asciiToUpper) with
  | none => rw [hb32] at hik; cases hik
  | some bytes =>
    rw [hb32] at hik
    injection hik with h
    exact ⟨bytes, h.symm⟩

theorem alphIdx_mem (c : Char) : ∀ (al : List Char) i, alphIdx al c = some i → c ∈ al := by
  intro al
  induction al with
  | nil => intro i h; cases h
  | cons x xs ih =>
    intro i h
    simp only [alphIdx] at h
    by_cases hx : x = c
    · subst hx; exact List.mem_cons_self x xs
    · rw [if_neg hx] at h
      cases hidx : alphIdx xs c with
      | none => rw [hidx] at h; cases h
      | some j => exact List.mem_cons_of_mem x (ih j hidx)

/-- C1: round-trip law: for every 32-byte public key, each of the three
address strings the encoder produces for the 40-byte tagged key parses
back, byte for byte, to that tagged key. -/
theorem c1_round_trip (p : List Nat) (hlen : p.length = 32) (hbyte : ∀ x ∈ p, x < 256) :
    parseAddress (addrBase36 (buildPublic p)) = Except.ok (buildPublic p) ∧
    parseAddress (addrBase32 (buildPublic p)) = Except.ok (buildPublic p) ∧
    parseAddress (addrBase16 (buildPublic p)) = Except.ok (buildPublic p) :=
  ⟨parseAddress_addrBase36 p hlen hbyte, parseAddress_addrBase32 p hlen hbyte,
    parseAddress_addrBase16 p hlen hbyte⟩

/-- Witness for C1, at the known-vector public key. -/
theorem c1_round_trip_witness :
    parseAddress (addrBase36 (buildPublic vectorPub)) = Except.ok (buildPublic vectorPub) ∧
    parseAddress (addrBase32 (buildPublic vectorPub)) = Except.ok (buildPublic vectorPub) ∧
    parseAddress (addrBase16 (buildPublic vectorPub)) = Except.ok (buildPublic vectorPub) :=
  c1_round_trip vectorPub (by decide) (by decide)

/-- C2 counterexample: the base-36 payload "!" contains a character
outside 0-9a-z, yet parseAddress fails with the invalid-key-tag
("Invalid IPNS Key Prefix") error, not an InvalidDigit error: indexOf
returns -1, the accumulator becomes -1, and validation rejects the
padded hex string "000...0-1". -/
theorem c2_counterexample :
    parseAddress ("ipns://k!".toList)
      = Except.error (ParseError.invalidKeyTag (List.replicate 78 '0' ++ ['-', '1'])) := by
  decide

/-- C2 (amended): an out-of-alphabet character in a base-36 payload is
not rejected with a dedicated InvalidDigit error (no such error exists):
indexOf yields -1 and the accumulator absorbs it, and a base-36 address
either parses successfully or fails with the invalid-key-tag error at
structural validation. -/
theorem c2_invalid_digit_amended :
    (∀ c, c ∉ b36Alph → b36idx c = -1) ∧
    (∀ a : List Char, (normalizeAddress a).head? = some 'k' →
      (∃ bs, parseAddress a = Except.ok bs) ∨
      (∃ hk, parseAddress a = Except.error (ParseError.invalidKeyTag hk))) := by
  constructor
  · intro c hc
    unfold b36idx
    cases hidx : alphIdx b36Alph c with
    | none => rfl
    | some i => exact absurd (alphIdx_mem c b36Alph i hidx) hc
  · intro a hhead
    have hik := intermediateHex_k a hhead
    by_cases hc : (List.leftpad 80 '0' (jsIntToHex
        (((normalizeAddress a).drop 1).foldl (fun r c => r * 36 + b36idx c) (0 : Int)))).take 16
          = TAG_HEX ∧
        (List.leftpad 80 '0' (jsIntToHex
        (((normalizeAddress a).drop 1).foldl (fun r c => r * 36 + b36idx c) (0 : Int)))).length = 80
    · obtain ⟨bs, hbs⟩ := kbranch_valid _ _ rfl hc.1 hc.2
      exact Or.inl ⟨bs, parseAddress_ok_of a _ bs hik hc.1 hc.2 hbs⟩
    · exact Or.inr ⟨_, parseAddress_invalid_of a _ hik hc⟩

/-- Witness for C2 (amended), at the character '!' and the address
"ipns://k!". -/
theorem c2_invalid_digit_amended_witness :
    b36idx '!' = -1 ∧
    ((∃ bs, parseAddress ("ipns://k!".toList) = Except.ok bs) ∨
     (∃ hk, parseAddress ("ipns://k!".toList) = Except.error (ParseError.invalidKeyTag hk))) :=
  ⟨c2_invalid_digit_amended.1 '!' (by decide), c2_invalid_digit_amended.2 _ (by decide)⟩

/-- C3 counterexample: with an upper-case scheme marker the decoder does
not strip the marker (the startsWith check runs before lower-casing), so
a valid base-16 address fails with UnsupportedFormat instead of parsing
to the tagged key, refuting case-insensitivity of the scheme marker. -/
theorem c3_counterexample :
    parseAddress ("IPNS://".toList ++ 'f' :: taggedHex (buildPublic vectorPub))
      = Except.error ParseError.unsupportedFormat ∧
    parseAddress ("ipns://".toList ++ 'f' :: taggedHex (buildPublic vectorPub))
      = Except.ok (buildPublic vectorPub) := by
  exact ⟨by decide, by decide⟩

/-- C3 (amended): decoding is case-insensitive in the base indicator and
payload, and the (exactly lower-case) scheme marker is optional: for
strings s and t that agree after ASCII lower-casing and do not themselves
begin with the lower-case marker, parsing "ipns://" ++ s, s and t all
agree. -/
theorem c3_case_insensitive_amended (s t : List Char)
    (hs : s.take 7 ≠ "ipns://".toList) (ht : t.take 7 ≠ "ipns://".toList)
    (hlow : s.map asciiToLower = t.map asciiToLower) :
    parseAddress ("ipns://".toList ++ s) = parseAddress t ∧
    parseAddress s = parseAddress t := by
  have h1 : normalizeAddress ("ipns://".toList ++ s) = normalizeAddress t := by
    rw [normalizeAddress_scheme_append, normalizeAddress_no_scheme t ht, hlow]
  have h2 : normalizeAddress s = normalizeAddress t := by
    rw [normalizeAddress_no_scheme s hs, normalizeAddress_no_scheme t ht, hlow]
  constructor
  · unfold parseAddress intermediateHex
    rw [h1]
  · unfold parseAddress intermediateHex
    rw [h2]

/-- Witness for C3 (amended), at the one-character variants "F" and "f". -/
theorem c3_case_insensitive_amended_witness :
    parseAddress ("ipns://".toList ++ ['F']) = parseAddress ['f'] ∧
    parseAddress ['F'] = parseAddress ['f'] :=
  c3_case_insensitive_amended ['F'] ['f'] (by decide) (by decide) (by decide)

/-- C4 counterexample: an 'f' address whose 80-character payload starts
with the correct tag and has the correct length but contains the non-hex
character 'z' passes the structural validation and parseAddress still
fails (inside hex decoding), refuting the claimed "if and only if". -/
theorem c4_counterexample :
    ("0172002408011220".toList ++ List.replicate 63 '0' ++ ['z']).length = 80 ∧
    ("0172002408011220".toList ++ List.replicate 63 '0' ++ ['z']).take 16 = TAG_HEX ∧
    parseAddress ('f' :: ("0172002408011220".toList ++ List.replicate 63 '0' ++ ['z']))
      = Except.error ParseError.scureError := by
  exact ⟨by decide, by decide, by decide⟩

/-- C4 (amended): when an intermediate hex string exists, a failed
tag/length validation yields the invalid-key-tag error carrying the
string; under a passed validation, success is equivalent to the string
being decodable hex; success always implies the validation held; and on
the 'k' and 'b' branches decodability is automatic, so the claimed
equivalence does hold there. -/
theorem c4_validation_amended (a : List Char) (hk : List Char)
    (hik : intermediateHex a = Except.ok hk) :
    (¬(hk.take 16 = TAG_HEX ∧ hk.length = 80) →
      parseAddress a = Except.error (ParseError.invalidKeyTag hk)) ∧
    ((hk.take 16 = TAG_HEX ∧ hk.length = 80) →
      ((∃ bs, parseAddress a = Except.ok bs) ↔ (hex_decode hk).isSome = true)) ∧
    (∀ bs, parseAddress a = Except.ok bs → hk.take 16 = TAG_HEX ∧ hk.length = 80) ∧
    ((normalizeAddress a).head? = some 'k' ∨ (normalizeAddress a).head? = some 'b' →
      hk.take 16 = TAG_HEX → hk.length = 80 → (hex_decode hk).isSome = true) := by
  refine ⟨fun hc => parseAddress_invalid_of a hk hik hc, ?_, ?_, ?_⟩
  · intro hc
    constructor
    · rintro ⟨bs, hbs⟩
      obtain ⟨hk', hik', _, _, hdec⟩ := parseAddress_ok_elim a bs hbs
      rw [hik] at hik'
      injection hik' with he
      subst he
      rw [hdec]
      rfl
    · intro hsome
      obtain ⟨bs, hdec⟩ := Option.isSome_iff_exists.mp hsome
      exact ⟨bs, parseAddress_ok_of a hk bs hik hc.1 hc.2 hdec⟩
  · intro bs hbs
    obtain ⟨hk', hik', ht, hl, _⟩ := parseAddress_ok_elim a bs hbs
    rw [hik] at hik'
    injection hik' with he
    subst he
    exact ⟨ht, hl⟩
  · rintro (hhead | hhead) ht hl
    · have hkk := intermediateHex_k a hhead
      rw [hik] at hkk
      injection hkk with he
      obtain ⟨bs, hbs⟩ := kbranch_valid _ hk he ht hl
      rw [hbs]
      rfl
    · obtain ⟨bytes, hbytes⟩ := intermediateHex_b_elim a hk hhead hik
      obtain ⟨bs, hbs⟩ := hex_encode_valid bytes
      rw [hbytes, hbs]
      rfl

/-- Witness for C4 (amended), at the known-vector base-16 address. -/
theorem c4_validation_amended_witness :
    (¬((taggedHex (buildPublic vectorPub)).take 16 = TAG_HEX ∧
        (taggedHex (buildPublic vectorPub)).length = 80) →
      parseAddress ('f' :: taggedHex (buildPublic vectorPub))
        = Except.error (ParseError.invalidKeyTag (taggedHex (buildPublic vectorPub)))) ∧
    (((taggedHex (buildPublic vectorPub)).take 16 = TAG_HEX ∧
        (taggedHex (buildPublic vectorPub)).length = 80) →
      ((∃ bs, parseAddress ('f' :: taggedHex (buildPublic vectorPub)) = Except.ok bs) ↔
        (hex_decode (taggedHex (buildPublic vectorPub))).isSome = true)) ∧
    (∀ bs, parseAddress ('f' :: taggedHex (buildPublic vectorPub)) = Except.ok bs →
      (taggedHex (buildPublic vectorPub)).take 16 = TAG_HEX ∧
      (taggedHex (buildPublic vectorPub)).length = 80) ∧
    ((normalizeAddress ('f' :: taggedHex (buildPublic vectorPub))).head? = some 'k' ∨
        (normalizeAddress ('f' :: taggedHex (buildPublic vectorPub))).head? = some 'b' →
      (taggedHex (buildPublic vectorPub)).take 16 = TAG_HEX →
      (taggedHex (buildPublic vectorPub)).length = 80 →
      (hex_decode (taggedHex (buildPublic vectorPub))).isSome = true) :=
  c4_validation_amended ('f' :: taggedHex (buildPublic vectorPub))
    (taggedHex (buildPublic vectorPub)) (by decide)

/-- C5 counterexample: at the known vector, the contenthash field equals
"0xe501" followed by the 80-character tagged hex, and differs from the
claimed "0x" + "e5" + tagged hex. -/
theorem c5_counterexample :
    (getKeys (fun _ => vectorPub) vectorSeed).map KeyBundle.contenthash
      = Except.ok ("0xe501".toList ++ taggedHex (buildPublic vectorPub)) ∧
    (getKeys (fun _ => vectorPub) vectorSeed).map KeyBundle.contenthash
      ≠ Except.ok ("0xe5".toList ++ taggedHex (buildPublic vectorPub)) := by
  exact ⟨by decide, by decide⟩

/-- C5 (amended): the contenthash field prepends the fixed two-byte hex
sequence "e501" (namespace byte e5 followed by 01) to the 80-character
tagged-key hex, with a "0x" marker. -/
theorem c5_contenthash_amended (getPublicKey : List Nat → List Nat) (seed : List Nat)
    (hseed : seed.length = 32) (hpub : (getPublicKey seed).length = 32) :
    (getKeys getPublicKey seed).map KeyBundle.contenthash
      = Except.ok ("0xe501".toList ++ taggedHex (buildPublic (getPublicKey seed))) ∧
    (taggedHex (buildPublic (getPublicKey seed))).length = 80 := by
  constructor
  · unfold getKeys
    rw [if_neg (by omega)]
    rfl
  · rw [taggedHex_eq]
    exact hex_encode_buildPublic_length _ hpub

/-- Witness for C5 (amended), at the known-vector seed and a provider
returning the known-vector public key. -/
theorem c5_contenthash_amended_witness :
    (getKeys (fun _ => vectorPub) vectorSeed).map KeyBundle.contenthash
      = Except.ok ("0xe501".toList ++ taggedHex (buildPublic vectorPub)) ∧
    (taggedHex (buildPublic vectorPub)).length = 80 :=
  c5_contenthash_amended (fun _ => vectorPub) vectorSeed (by decide) (by decide)

/-- C7: every address whose leading character, after optional scheme
stripping and lower-casing, is none of k, b, f fails with the
UnsupportedFormat error. -/
theorem c7_unsupported (a : List Char)
    (hk : (normalizeAddress a).head? ≠ some 'k')
    (hb : (normalizeAddress a).head? ≠ some 'b')
    (hf : (normalizeAddress a).head? ≠ some 'f') :
    parseAddress a = Except.error ParseError.unsupportedFormat :=
  parseAddress_error_of a _ (intermediateHex_else a hk hb hf)

/-- Witness for C7 at the spec's example "ipns://zXYZ". -/
theorem c7_unsupported_witness :
    parseAddress ("ipns://zXYZ".toList) = Except.error ParseError.unsupportedFormat :=
  c7_unsupported ("ipns://zXYZ".toList) (by decide) (by decide) (by decide)

/-- C8: getKeys fails with the invalid-seed-length error exactly when the
seed is not 32 bytes, and with a 32-byte seed no error occurs (the whole
bundle is produced). -/
theorem c8_seed_length (getPublicKey : List Nat → List Nat) (seed : List Nat) :
    (getKeys getPublicKey seed = Except.error KeyError.invalidSeedLength ↔ seed.length ≠ 32) ∧
    (seed.length = 32 → (getKeys getPublicKey seed).isOk = true) := by
  unfold getKeys
  by_cases h : seed.length = 32
  · rw [if_neg (by omega)]
    constructor
    · constructor
      · intro hcontra
        cases hcontra
      · intro hne
        exact absurd h hne
    · intro _
      rfl
  · rw [if_pos (by omega)]
    constructor
    · constructor
      · intro _
        exact h
      · intro _
        rfl
    · intro hh
      exact absurd hh h

/-- Witness for C8, at a 31-byte seed and at the 32-byte vector seed. -/
theorem c8_seed_length_witness :
    getKeys (fun _ => vectorPub) (List.replicate 31 0)
      = Except.error KeyError.invalidSeedLength ∧
    (getKeys (fun _ => vectorPub) vectorSeed).isOk = true :=
  ⟨(c8_seed_length (fun _ => vectorPub) (List.replicate 31 0)).1.mpr (by decide),
   (c8_seed_length (fun _ => vectorPub) vectorSeed).2 (by decide)⟩

/-- C9: the tagged key built inside getKeys from a 32-byte public key is
exactly 40 bytes and starts with the protocol tag, and every byte array a
successful parseAddress returns is exactly 40 bytes and starts with the
protocol tag. -/
theorem c9_tagged_invariant :
    (∀ p : List Nat, p.length = 32 →
      (buildPublic p).length = 40 ∧ (buildPublic p).take 8 = PROTOCOL_TAG) ∧
    (∀ a bs, parseAddress a = Except.ok bs →
      bs.length = 40 ∧ bs.take 8 = PROTOCOL_TAG) := by
  constructor
  · intro p hlen
    refine ⟨buildPublic_length p hlen, ?_⟩
    unfold buildPublic
    exact take_eq_of_append _ _ 8 (by decide)
  · intro a bs h
    obtain ⟨hk, _, htake, hlenk, hdec⟩ := parseAddress_ok_elim a bs h
    exact hex_decode_structure hk bs hdec hlenk htake

/-- Witness for C9: both halves instantiated at the known vector. -/
theorem c9_tagged_invariant_witness :
    ((buildPublic vectorPub).length = 40 ∧ (buildPublic vectorPub).take 8 = PROTOCOL_TAG) ∧
    ((buildPublic vectorPub).length = 40 ∧ (buildPublic vectorPub).take 8 = PROTOCOL_TAG) :=
  ⟨c9_tagged_invariant.1 vectorPub (by decide),
   c9_tagged_invariant.2 vectorAddr (buildPublic vectorPub) (by decide)⟩

/-- C10: an 'f' address whose payload has the correct tag and length but
contains a non-hexadecimal character passes the structural validation and
fails inside hex decoding with the scure-base error, which is neither
UnsupportedFormat nor the invalid-key-tag error (and the code has no
InvalidDigit or seed-length error in parseAddress at all). -/
theorem c10_scure_error :
    parseAddress ("ipns://f0172002408011220".toList ++ List.replicate 63 '0' ++ ['x'])
      = Except.error ParseError.scureError ∧
    intermediateHex ("ipns://f0172002408011220".toList ++ List.replicate 63 '0' ++ ['x'])
      = Except.ok ("0172002408011220".toList ++ (List.replicate 63 '0' ++ ['x'])) ∧
    ("0172002408011220".toList ++ (List.replicate 63 '0' ++ ['x'])).take 16 = TAG_HEX ∧
    ("0172002408011220".toList ++ (List.replicate 63 '0' ++ ['x'])).length = 80 ∧
    ParseError.scureError ≠ ParseError.unsupportedFormat ∧
    ParseError.scureError
      ≠ ParseError.invalidKeyTag ("0172002408011220".toList ++ (List.replicate 63 '0' ++ ['x'])) := by
  exact ⟨by decide, by decide, by decide, by decide, by decide, by decide⟩

/-- C6 counterexample: the bundle's base-32 address carries the scheme
marker: it equals "ipns://" followed by the claimed string, and is not
equal to the claimed bare string; re-encoding the decoded key likewise
yields the scheme-marked form. -/
theorem c6_counterexample :
    (getKeys ed25519_getPublicKey vectorSeed).map KeyBundle.base32
      = Except.ok ("ipns://".toList ++ vectorAddr) ∧
    (getKeys ed25519_getPublicKey vectorSeed).map KeyBundle.base32 ≠ Except.ok vectorAddr ∧
    addrBase32 (buildPublic vectorPub) ≠ vectorAddr := by
  exact ⟨by decide, by decide, by decide⟩

/-- C6 (amended): known vector: the seed yields the stated raw public
key; the bundle's publicKey field is the stated 80-character tagged hex
with a 0x marker; the base-32 address is "ipns://" plus the stated
string; decoding the stated base-32 string returns the tagged key, and
re-encoding it yields "ipns://" plus the same string. -/
theorem c6_known_vector_amended :
    ed25519_getPublicKey vectorSeed = vectorPub ∧
    (getKeys ed25519_getPublicKey vectorSeed).map KeyBundle.publicKey
      = Except.ok ("0x017200240801122012c8299ec2c51dffbbcb4f9fccadcee1424cb237e9b30d3cd72d47c18103689d".toList) ∧
    (getKeys ed25519_getPublicKey vectorSeed).map KeyBundle.base32
      = Except.ok ("ipns://".toList ++ vectorAddr) ∧
    parseAddress vectorAddr = Except.ok (buildPublic vectorPub) ∧
    addrBase32 (buildPublic vectorPub) = "ipns://".toList ++ vectorAddr := by
  exact ⟨by decide, by decide, by decide, by decide, by decide⟩
